import Mathlib

/-!
# Verification of `ai_code_assistant.retrieval.search`

Shallow embedding of the search module of the `ai-code-assistant` repository
(`src/ai_code_assistant/retrieval/search.py`).  Scores are modelled as
rationals; the external collaborators (ChromaDB collection, embedding model,
BM25 scorer, cross-encoder reranker) are modelled as oracle functions carried
in a `SearchEnv` record.  All definitions follow the Python source line by
line; fallible paths are total by construction.
-/

namespace RetrievalSearch

/-! ## Tokenizer (`CodebaseSearch._tokenize`)

The Python tokenizer first applies
`re.findall(r'[a-zA-Z_][a-zA-Z0-9_]*|[0-9]+', text)`, then splits each token
on `_`, keeps all-uppercase segments atomic (lowercased), and otherwise splits
camelCase with `re.findall(r'[a-z]+|[A-Z]+(?=[A-Z][a-z]|$|[0-9])|[A-Z][a-z]*|[0-9]+', part)`,
lowercasing every piece.  The two `findall` scanners are embedded as
character-list scanners with explicit fuel (the input length bounds the number
of matches, so the fuel never runs out on the initial call). -/

/-- Split a maximal run of characters satisfying `p` off the front of a list
(the semantics of a greedy character class in a regex). -/
def takeRun (p : Char → Bool) : List Char → List Char × List Char
  | [] => ([], [])
  | c :: rest =>
    if p c then
      let r := takeRun p rest
      (c :: r.1, r.2)
    else ([], c :: rest)

/-- First character class of `[a-zA-Z_][a-zA-Z0-9_]*`. -/
def identStart (c : Char) : Bool := c.isAlpha || c = '_'

/-- Continuation character class `[a-zA-Z0-9_]`. -/
def identCont (c : Char) : Bool := c.isAlpha || c.isDigit || c = '_'

/-- Scanner for `re.findall(r'[a-zA-Z_][a-zA-Z0-9_]*|[0-9]+', text)`:
identifier-like runs and standalone digit runs, other characters skipped. -/
def findTokens : Nat → List Char → List (List Char)
  | 0, _ => []
  | _ + 1, [] => []
  | fuel + 1, c :: rest =>
    if identStart c then
      let r := takeRun identCont rest
      (c :: r.1) :: findTokens fuel r.2
    else if c.isDigit then
      let r := takeRun Char.isDigit rest
      (c :: r.1) :: findTokens fuel r.2
    else
      findTokens fuel rest

/-- Python `str.split('_')` on character lists (empty segments are kept, exactly as
in Python). -/
def splitUnderscore : List Char → List (List Char)
  | [] => [[]]
  | c :: rest =>
    match splitUnderscore rest with
    | [] => [[]]
    | h :: t => if c = '_' then [] :: h :: t else (c :: h) :: t

/-- Python `str.isupper()`: at least one cased character and no lowercase
character (our inputs are ASCII letters and digits). -/
def pyIsUpper (l : List Char) : Bool :=
  l.any Char.isUpper && !(l.any Char.isLower)

/-- The lookahead `(?=[A-Z][a-z]|$|[0-9])` of the camelCase regex, evaluated
against the remainder of the input. -/
def lookOk : List Char → Bool
  | [] => true
  | d :: l =>
    d.isDigit ||
      (d.isUpper && (match l with
        | e :: _ => e.isLower
        | [] => false))

/-- Backtracking for the alternative `[A-Z]+(?=...)`: try the maximal
uppercase run first (given reversed), then shorter and shorter prefixes.
Returns the matched run together with the remaining input on success. -/
def tryUpper : List Char → List Char → Option (List Char × List Char)
  | [], _ => none
  | u :: revRest, after =>
    if lookOk after then some ((u :: revRest).reverse, after)
    else tryUpper revRest (u :: after)

/-- Scanner for
`re.findall(r'[a-z]+|[A-Z]+(?=[A-Z][a-z]|$|[0-9])|[A-Z][a-z]*|[0-9]+', part)`.
Alternatives are tried in order at each position, as the regex engine does. -/
def camelSplit : Nat → List Char → List (List Char)
  | 0, _ => []
  | _ + 1, [] => []
  | fuel + 1, c :: rest =>
    if c.isLower then
      let r := takeRun Char.isLower rest
      (c :: r.1) :: camelSplit fuel r.2
    else if c.isUpper then
      let r := takeRun Char.isUpper rest
      match tryUpper (c :: r.1).reverse r.2 with
      | some m => m.1 :: camelSplit fuel m.2
      | none =>
        let low := takeRun Char.isLower rest
        (c :: low.1) :: camelSplit fuel low.2
    else if c.isDigit then
      let r := takeRun Char.isDigit rest
      (c :: r.1) :: camelSplit fuel r.2
    else
      camelSplit fuel rest

/-- Embeds `CodebaseSearch._tokenize`: extract identifier/digit runs, split on
underscore, keep all-uppercase segments atomic, split camelCase, lowercase. -/
def tokenize (text : String) : List String :=
  let cs := text.toList
  let tokens := findTokens (cs.length + 1) cs
  tokens.flatMap (fun tok =>
    (splitUnderscore tok).flatMap (fun part =>
      if part.isEmpty then []
      else if pyIsUpper part then [String.mk (part.map Char.toLower)]
      else (camelSplit (part.length + 1) part).map
        (fun piece => String.mk (piece.map Char.toLower))))

/-! ## Data model -/

/-- One stored metadata record, as it comes back from the vector store.  Every
field is optional: the code reads each one with `meta.get(key, default)`. -/
structure Meta where
  file_path : Option String
  start_line : Option Int
  end_line : Option Int
  chunk_type : Option String
  name : Option String
  language : Option String
deriving DecidableEq, Repr

/-- A metadata record with every key missing. -/
def emptyMeta : Meta :=
  { file_path := none, start_line := none, end_line := none,
    chunk_type := none, name := none, language := none }

/-- The `SearchResult` dataclass of the Python module. -/
structure SearchResult where
  content : String
  file_path : String
  start_line : Int
  end_line : Int
  chunk_type : String
  name : String
  language : String
  score : ℚ
  semantic_score : ℚ
  keyword_score : ℚ
deriving DecidableEq, Repr

/-- The `SearchResponse` dataclass of the Python module. -/
structure SearchResponse where
  query : String
  results : List SearchResult
  total_results : Nat
deriving DecidableEq, Repr

/-- The environment of one `CodebaseSearch` instance: the stored collection
and the oracle behaviour of its external collaborators.

* `entries` — the collection contents `(document, metadata)` in storage
  order, as returned by `collection.get()`;
* `queryFn` — the composition of the embedding model with
  `collection.query`: `(query text, n_results, language where-clause) ↦`
  list of `(document, metadata, distance)` nearest neighbours;
* `bm25ScoresFn` — `BM25Okapi.get_scores` on the tokenized query, aligned
  index-by-index with `entries`;
* `rerankFn` — `CrossEncoder.predict` on a `(query, document)` pair;
* `bm25Available` / `rerankAvailable` — the module-level capability flags
  `BM25_AVAILABLE` and `RERANK_AVAILABLE`. -/
structure SearchEnv where
  entries : List (String × Meta)
  queryFn : String → Nat → Option String → List (String × Meta × ℚ)
  bm25ScoresFn : List String → List ℚ
  rerankFn : String → String → ℚ
  bm25Available : Bool
  rerankAvailable : Bool

/-! ## Generic list helpers (Python dict / `list.sort` / `min` / `max`) -/

/-- Python dict assignment `d[k] = v`: replace in place if the key exists,
otherwise append (insertion order preserved). -/
def dinsert {K V : Type} [DecidableEq K] (k : K) (v : V) (d : List (K × V)) :
    List (K × V) :=
  if d.any (fun p => p.1 = k) then
    d.map (fun p => if p.1 = k then (k, v) else p)
  else d ++ [(k, v)]

/-- Python dict lookup `d[k]` / `k in d`. -/
def dlookup {K V : Type} [DecidableEq K] (k : K) : List (K × V) → Option V
  | [] => none
  | p :: rest => if p.1 = k then some p.2 else dlookup k rest

/-- Stable insertion for a descending sort by a rational key. -/
def insertByDesc {α : Type} (key : α → ℚ) (a : α) : List α → List α
  | [] => [a]
  | b :: rest =>
    if key b ≤ key a then a :: b :: rest else b :: insertByDesc key a rest

/-- Python `list.sort(key=..., reverse=True)`: stable descending sort. -/
def sortByDesc {α : Type} (key : α → ℚ) : List α → List α
  | [] => []
  | a :: rest => insertByDesc key a (sortByDesc key rest)

/-- Stable insertion for an ascending sort by an integer key. -/
def insertByAsc {α : Type} (key : α → Int) (a : α) : List α → List α
  | [] => [a]
  | b :: rest =>
    if key a ≤ key b then a :: b :: rest else b :: insertByAsc key a rest

/-- Python `list.sort(key=...)`: stable ascending sort. -/
def sortByAsc {α : Type} (key : α → Int) : List α → List α
  | [] => []
  | a :: rest => insertByAsc key a (sortByAsc key rest)

/-- Python `max` over a list (the code only calls it on nonempty lists). -/
def pymax : List ℚ → ℚ
  | [] => 0
  | a :: rest => rest.foldl max a

/-- Python `min` over a list (the code only calls it on nonempty lists). -/
def pymin : List ℚ → ℚ
  | [] => 0
  | a :: rest => rest.foldl min a

/-! ## Filters -/

/-- Embeds `if file_filter and file_filter.lower() not in file_path.lower(): skip`.
Python treats `None` and `""` as falsy, so those never filter; otherwise the
check is a case-insensitive substring test. -/
def strContains (needle hay : String) : Bool :=
  decide (needle.toList <:+: hay.toList)

/-- Python `str.lower()`. -/
def pyLower (s : String) : String :=
  String.mk (s.toList.map Char.toLower)

def passFileFilter (ff : Option String) (fp : String) : Bool :=
  match ff with
  | none => true
  | some s => s.isEmpty || strContains (pyLower s) (pyLower fp)

/-- Embeds `if language_filter: if meta.get("language", "") != language_filter: skip`. -/
def passLangFilter (lf : Option String) (lang : String) : Bool :=
  match lf with
  | none => true
  | some s => s.isEmpty || lang = s

/-- Embeds `where = {"language": language_filter} if language_filter else None`:
an empty-string filter is falsy in Python and sends no where-clause. -/
def whereOf (lf : Option String) : Option String :=
  match lf with
  | none => none
  | some s => if s.isEmpty then none else some s

/-! ## Semantic search (`CodebaseSearch.search`) -/

/-- The body of the result loop of `search`: distance → similarity
`1 / (1 + distance)`, then the `min_score` filter, then the file filter, then
the `SearchResult` construction with `meta.get` defaulting. -/
def resultOfQueryItem (min_score : ℚ) (ff : Option String)
    (item : String × Meta × ℚ) : Option SearchResult :=
  let score : ℚ := 1 / (1 + item.2.2)
  if score < min_score then none
  else
    let fp := item.2.1.file_path.getD ""
    if passFileFilter ff fp = false then none
    else some
      { content := item.1
        file_path := fp
        start_line := item.2.1.start_line.getD 0
        end_line := item.2.1.end_line.getD 0
        chunk_type := item.2.1.chunk_type.getD "unknown"
        name := item.2.1.name.getD ""
        language := item.2.1.language.getD ""
        score := score
        semantic_score := score
        keyword_score := 0 }

/-- Embeds `CodebaseSearch.search`: embed the query, run the vector-store nearest
neighbour query pre-filtered by language, post-filter by `min_score` and
`file_filter`, and package the response. -/
def search (env : SearchEnv) (query : String) (top_k : Nat) (min_score : ℚ)
    (file_filter language_filter : Option String) : SearchResponse :=
  let raw := env.queryFn query top_k (whereOf language_filter)
  let rs := raw.filterMap (resultOfQueryItem min_score file_filter)
  { query := query, results := rs, total_results := rs.length }

/-! ## BM25 keyword search (`CodebaseSearch._bm25_search`) -/

/-- The candidate loop of `_bm25_search`: tokenize the query, score every
stored document, drop non-positive scores, apply both filters.  An empty
token list returns no candidates (the code returns `[]` before scoring). -/
def bm25Candidates (env : SearchEnv) (query : String)
    (ff lf : Option String) : List (String × Meta × ℚ) :=
  let qToks := tokenize query
  if qToks.isEmpty then []
  else
    let scores := env.bm25ScoresFn qToks
    (env.entries.zip scores).filterMap (fun es =>
      if es.2 ≤ 0 then none
      else if passFileFilter ff (es.1.2.file_path.getD "") = false then none
      else if passLangFilter lf (es.1.2.language.getD "") = false then none
      else some (es.1.1, es.1.2, es.2))

/-- Embeds `CodebaseSearch._bm25_search`: `[]` when the BM25 library is missing or
the lazily built index is `None` (empty collection); otherwise the candidate
list sorted descending by score and truncated to `top_k`. -/
def bm25_search (env : SearchEnv) (query : String) (top_k : Nat)
    (ff lf : Option String) : List (String × Meta × ℚ) :=
  if env.bm25Available = false || env.entries.isEmpty then []
  else (sortByDesc (fun e => e.2.2) (bm25Candidates env query ff lf)).take top_k

/-! ## Re-ranking (`CodebaseSearch._rerank`) -/

/-- The raw cross-encoder scores of a result batch. -/
def rerankRaws (env : SearchEnv) (query : String)
    (results : List SearchResult) : List ℚ :=
  results.map (fun r => env.rerankFn query r.content)

/-- Embeds `score_range = max_score - min_score if max_score > min_score else 1.0`. -/
def rerankRange (env : SearchEnv) (query : String)
    (results : List SearchResult) : ℚ :=
  let raws := rerankRaws env query results
  if pymin raws < pymax raws then pymax raws - pymin raws else 1

/-- Embeds `CodebaseSearch._rerank`: when a reranker is available and the batch is
nonempty, min-max normalize the cross-encoder scores, replace each result's
`score` (sub-scores kept), sort descending and truncate; otherwise just
truncate. -/
def rerankStep (env : SearchEnv) (query : String)
    (results : List SearchResult) (top_k : Nat) : List SearchResult :=
  if env.rerankAvailable = false || results.isEmpty then results.take top_k
  else
    let raws := rerankRaws env query results
    let mn := pymin raws
    let range := rerankRange env query results
    let updated := (results.zip raws).map (fun p =>
      { content := p.1.content
        file_path := p.1.file_path
        start_line := p.1.start_line
        end_line := p.1.end_line
        chunk_type := p.1.chunk_type
        name := p.1.name
        language := p.1.language
        score := (p.2 - mn) / range
        semantic_score := p.1.semantic_score
        keyword_score := p.1.keyword_score })
    (sortByDesc (fun r => r.score) updated).take top_k

/-! ## Hybrid search (`CodebaseSearch.hybrid_search`) -/

/-- The semantic lookup map of `hybrid_search`: key `(file_path, start_line)`
mapped to `(result, result.score)`, built in iteration order. -/
def semanticDict (rs : List SearchResult) :
    List ((String × Int) × (SearchResult × ℚ)) :=
  rs.foldl (fun d r => dinsert (r.file_path, r.start_line) (r, r.score) d) []

/-- The keyword lookup map of `hybrid_search`: BM25 scores normalized by the
batch maximum (`score / max_bm25 if max_bm25 > 0 else 0`). -/
def keywordDict (bm25Results : List (String × Meta × ℚ)) :
    List ((String × Int) × (String × Meta × ℚ)) :=
  if bm25Results.isEmpty then []
  else
    let maxBm25 := pymax (bm25Results.map (fun e => e.2.2))
    bm25Results.foldl (fun d e =>
      dinsert (e.2.1.file_path.getD "", e.2.1.start_line.getD 0)
        (e.1, e.2.1, if 0 < maxBm25 then e.2.2 / maxBm25 else 0) d) []

/-- The body of the fusion loop of `hybrid_search` for one key: pick the
chunk data from the semantic hit when present (else from the keyword hit),
combine `alpha * semantic + (1 - alpha) * keyword`, apply `min_score`. -/
def fuseKey (alpha min_score : ℚ)
    (semD : List ((String × Int) × (SearchResult × ℚ)))
    (kwD : List ((String × Int) × (String × Meta × ℚ)))
    (k : String × Int) : Option SearchResult :=
  match dlookup k semD with
  | some rv =>
    let sem := rv.2
    let kw : ℚ := match dlookup k kwD with | some t => t.2.2 | none => 0
    let combined := alpha * sem + (1 - alpha) * kw
    if combined < min_score then none
    else some
      { content := rv.1.content
        file_path := rv.1.file_path
        start_line := rv.1.start_line
        end_line := rv.1.end_line
        chunk_type := rv.1.chunk_type
        name := rv.1.name
        language := rv.1.language
        score := combined
        semantic_score := sem
        keyword_score := kw }
  | none =>
    match dlookup k kwD with
    | some t =>
      let kw := t.2.2
      let combined := alpha * 0 + (1 - alpha) * kw
      if combined < min_score then none
      else some
        { content := t.1
          file_path := t.2.1.file_path.getD ""
          start_line := t.2.1.start_line.getD 0
          end_line := t.2.1.end_line.getD 0
          chunk_type := t.2.1.chunk_type.getD "unknown"
          name := t.2.1.name.getD ""
          language := t.2.1.language.getD ""
          score := combined
          semantic_score := 0
          keyword_score := kw }
    | none => none

/-- Step 1 + 3 of `hybrid_search`: the semantic lookup map over the candidate
pool `search(query, fetch_k, min_score=0, filters)`. -/
def hybridSemD (env : SearchEnv) (query : String) (fetch_k : Nat)
    (ff lf : Option String) : List ((String × Int) × (SearchResult × ℚ)) :=
  semanticDict (search env query fetch_k 0 ff lf).results

/-- Step 2 + 4 of `hybrid_search`: the normalized keyword lookup map over the
candidate pool `_bm25_search(query, fetch_k, filters)`. -/
def hybridKwD (env : SearchEnv) (query : String) (fetch_k : Nat)
    (ff lf : Option String) : List ((String × Int) × (String × Meta × ℚ)) :=
  keywordDict (bm25_search env query fetch_k ff lf)

/-- Step 5 + 6 of `hybrid_search`: iterate over the union of keys, fuse the
scores, apply `min_score`. -/
def hybridFused (env : SearchEnv) (query : String) (fetch_k : Nat)
    (min_score alpha : ℚ) (ff lf : Option String) : List SearchResult :=
  let semD := hybridSemD env query fetch_k ff lf
  let kwD := hybridKwD env query fetch_k ff lf
  let semKeys := semD.map Prod.fst
  let allKeys := semKeys ++ (kwD.map Prod.fst).filter (fun k => !semKeys.contains k)
  allKeys.filterMap (fuseKey alpha min_score semD kwD)

/-- Embeds `CodebaseSearch.hybrid_search`.  With the BM25 library absent it
delegates to `search` verbatim; otherwise it fetches `fetch_k` candidates
from each retrieval path, fuses them by `(file_path, start_line)` with the
weighted combination, sorts by combined score, and either re-ranks the top
`rerank_top_k` or truncates to `top_k`. -/
def hybrid_search (env : SearchEnv) (query : String) (top_k : Nat)
    (min_score alpha : ℚ) (file_filter language_filter : Option String)
    (rerank : Bool) (rerank_top_k : Nat) : SearchResponse :=
  if env.bm25Available = false then
    search env query top_k min_score file_filter language_filter
  else
    let fetch_k := if rerank then rerank_top_k else min (top_k * 3) 100
    let sorted := sortByDesc (fun r => r.score)
      (hybridFused env query fetch_k min_score alpha file_filter language_filter)
    let final :=
      if rerank && env.rerankAvailable then
        rerankStep env query (sorted.take rerank_top_k) top_k
      else sorted.take top_k
    { query := query, results := final, total_results := final.length }

/-! ## File context (`CodebaseSearch.get_file_context`) -/

/-- The `SearchResult` built for one stored chunk in `get_file_context`:
`score = 1.0` (not a similarity search), sub-scores keep their dataclass
default `0.0`, the other fields come from `meta.get` with the usual
defaults. -/
def fileContextResult (e : String × Meta) : SearchResult :=
  { content := e.1
    file_path := e.2.file_path.getD ""
    start_line := e.2.start_line.getD 0
    end_line := e.2.end_line.getD 0
    chunk_type := e.2.chunk_type.getD "unknown"
    name := e.2.name.getD ""
    language := e.2.language.getD ""
    score := 1
    semantic_score := 0
    keyword_score := 0 }

/-- Embeds `CodebaseSearch.get_file_context`: `collection.get(where={"file_path":
file_path})` returns the stored entries whose metadata `file_path` equals the
argument; each becomes a `SearchResult`, sorted ascending by `start_line`. -/
def get_file_context (env : SearchEnv) (file_path : String) : List SearchResult :=
  let got := env.entries.filter (fun e => e.2.file_path = some file_path)
  sortByAsc (fun r => r.start_line) (got.map fileContextResult)

/-! ## Constructor (`CodebaseSearch.__init__`) -/

/-- The message of the `FileNotFoundError` raised when the persistence
directory is missing. -/
def initMessageDir (persist_path : String) : String :=
  "Index not found at " ++ persist_path ++ ". Run 'ai-assist index' first."

/-- The message of the `FileNotFoundError` raised when
`get_collection` fails. -/
def initMessageCollection (collection_name : String) : String :=
  "Collection '" ++ collection_name ++ "' not found. Run 'ai-assist index' first."

/-- Embeds `CodebaseSearch.__init__`: raise if the persistence directory does not
exist, raise if the collection cannot be retrieved, otherwise produce the
search session.  `dirExists` models `persist_path.exists()` and `collection`
models the outcome of `client.get_collection` (`none` = any exception). -/
def initSearch (dirExists : Bool) (persist_path collection_name : String)
    (collection : Option SearchEnv) : Except String SearchEnv :=
  if dirExists = false then .error (initMessageDir persist_path)
  else
    match collection with
    | none => .error (initMessageCollection collection_name)
    | some env => .ok env


/-! ## Helper lemmas: sorting -/

theorem insertByDesc_perm {α : Type} (key : α → ℚ) (a : α) (l : List α) :
    List.Perm (insertByDesc key a l) (a :: l) := by
  induction l with
  | nil => simp [insertByDesc]
  | cons b rest ih =>
    simp only [insertByDesc]
    split
    · exact List.Perm.refl _
    · exact (List.Perm.cons b ih).trans (List.Perm.swap a b rest)

theorem sortByDesc_perm {α : Type} (key : α → ℚ) (l : List α) :
    List.Perm (sortByDesc key l) l := by
  induction l with
  | nil => simp [sortByDesc]
  | cons a rest ih =>
    exact (insertByDesc_perm key a _).trans (ih.cons a)

theorem mem_sortByDesc {α : Type} {key : α → ℚ} {l : List α} {x : α} :
    x ∈ sortByDesc key l ↔ x ∈ l :=
  (sortByDesc_perm key l).mem_iff

theorem sorted_insertByDesc {α : Type} (key : α → ℚ) (a : α) (l : List α)
    (h : l.Pairwise (fun x y => key y ≤ key x)) :
    (insertByDesc key a l).Pairwise (fun x y => key y ≤ key x) := by
  induction l with
  | nil => simp [insertByDesc]
  | cons b rest ih =>
    simp only [insertByDesc]
    rcases List.pairwise_cons.mp h with ⟨hb, hrest⟩
    split
    · rename_i hle
      refine List.pairwise_cons.mpr ⟨?_, h⟩
      intro y hy
      rcases List.mem_cons.mp hy with rfl | hy
      · exact hle
      · exact le_trans (hb y hy) hle
    · rename_i hgt
      push_neg at hgt
      refine List.pairwise_cons.mpr ⟨?_, ih hrest⟩
      intro y hy
      rcases List.mem_cons.mp ((insertByDesc_perm key a rest).mem_iff.mp hy) with rfl | hy
      · exact le_of_lt hgt
      · exact hb y hy

theorem sorted_sortByDesc {α : Type} (key : α → ℚ) (l : List α) :
    (sortByDesc key l).Pairwise (fun x y => key y ≤ key x) := by
  induction l with
  | nil => simp [sortByDesc]
  | cons a rest ih => exact sorted_insertByDesc key a _ ih

theorem insertByAsc_perm {α : Type} (key : α → Int) (a : α) (l : List α) :
    List.Perm (insertByAsc key a l) (a :: l) := by
  induction l with
  | nil => simp [insertByAsc]
  | cons b rest ih =>
    simp only [insertByAsc]
    split
    · exact List.Perm.refl _
    · exact (List.Perm.cons b ih).trans (List.Perm.swap a b rest)

theorem sortByAsc_perm {α : Type} (key : α → Int) (l : List α) :
    List.Perm (sortByAsc key l) l := by
  induction l with
  | nil => simp [sortByAsc]
  | cons a rest ih =>
    exact (insertByAsc_perm key a _).trans (ih.cons a)

theorem sorted_insertByAsc {α : Type} (key : α → Int) (a : α) (l : List α)
    (h : l.Pairwise (fun x y => key x ≤ key y)) :
    (insertByAsc key a l).Pairwise (fun x y => key x ≤ key y) := by
  induction l with
  | nil => simp [insertByAsc]
  | cons b rest ih =>
    simp only [insertByAsc]
    rcases List.pairwise_cons.mp h with ⟨hb, hrest⟩
    split
    · rename_i hle
      refine List.pairwise_cons.mpr ⟨?_, h⟩
      intro y hy
      rcases List.mem_cons.mp hy with rfl | hy
      · exact hle
      · exact le_trans hle (hb y hy)
    · rename_i hgt
      push_neg at hgt
      refine List.pairwise_cons.mpr ⟨?_, ih hrest⟩
      intro y hy
      rcases List.mem_cons.mp ((insertByAsc_perm key a rest).mem_iff.mp hy) with rfl | hy
      · exact le_of_lt hgt
      · exact hb y hy

theorem sorted_sortByAsc {α : Type} (key : α → Int) (l : List α) :
    (sortByAsc key l).Pairwise (fun x y => key x ≤ key y) := by
  induction l with
  | nil => simp [sortByAsc]
  | cons a rest ih => exact sorted_insertByAsc key a _ ih

/-! ## Helper lemmas: Python `min` / `max` -/

theorem le_foldl_max {l : List ℚ} (a : ℚ) : a ≤ l.foldl max a := by
  induction l generalizing a with
  | nil => exact le_refl a
  | cons b rest ih => exact le_trans (le_max_left a b) (ih (max a b))

theorem arg_le_foldl_max {l : List ℚ} {a x : ℚ} (hx : x ∈ l) :
    x ≤ l.foldl max a := by
  induction l generalizing a with
  | nil => cases hx
  | cons b rest ih =>
    rcases List.mem_cons.mp hx with rfl | hx
    · exact le_trans (le_max_right a x) (le_foldl_max (max a x))
    · exact ih hx

theorem foldl_max_mem {l : List ℚ} (a : ℚ) : l.foldl max a ∈ a :: l := by
  induction l generalizing a with
  | nil => simp
  | cons b rest ih =>
    simp only [List.foldl_cons]
    have h := ih (max a b)
    rcases List.mem_cons.mp h with h | h
    · rcases max_choice a b with hab | hab
      · exact List.mem_cons.mpr (Or.inl (h.trans hab))
      · exact List.mem_cons.mpr (Or.inr (List.mem_cons.mpr (Or.inl (h.trans hab))))
    · exact List.mem_cons.mpr (Or.inr (List.mem_cons.mpr (Or.inr h)))

theorem le_pymax {l : List ℚ} {x : ℚ} (hx : x ∈ l) : x ≤ pymax l := by
  cases l with
  | nil => cases hx
  | cons a rest =>
    rcases List.mem_cons.mp hx with rfl | hx
    · exact le_foldl_max x
    · exact arg_le_foldl_max hx

theorem pymax_mem {l : List ℚ} (h : l ≠ []) : pymax l ∈ l := by
  cases l with
  | nil => exact absurd rfl h
  | cons a rest => exact foldl_max_mem a

theorem foldl_min_le {l : List ℚ} (a : ℚ) : l.foldl min a ≤ a := by
  induction l generalizing a with
  | nil => exact le_refl a
  | cons b rest ih => exact le_trans (ih (min a b)) (min_le_left a b)

theorem foldl_min_le_arg {l : List ℚ} {a x : ℚ} (hx : x ∈ l) :
    l.foldl min a ≤ x := by
  induction l generalizing a with
  | nil => cases hx
  | cons b rest ih =>
    rcases List.mem_cons.mp hx with rfl | hx
    · exact le_trans (foldl_min_le (min a x)) (min_le_right a x)
    · exact ih hx

theorem foldl_min_mem {l : List ℚ} (a : ℚ) : l.foldl min a ∈ a :: l := by
  induction l generalizing a with
  | nil => simp
  | cons b rest ih =>
    simp only [List.foldl_cons]
    have h := ih (min a b)
    rcases List.mem_cons.mp h with h | h
    · rcases min_choice a b with hab | hab
      · exact List.mem_cons.mpr (Or.inl (h.trans hab))
      · exact List.mem_cons.mpr (Or.inr (List.mem_cons.mpr (Or.inl (h.trans hab))))
    · exact List.mem_cons.mpr (Or.inr (List.mem_cons.mpr (Or.inr h)))

theorem pymin_le {l : List ℚ} {x : ℚ} (hx : x ∈ l) : pymin l ≤ x := by
  cases l with
  | nil => cases hx
  | cons a rest =>
    rcases List.mem_cons.mp hx with rfl | hx
    · exact foldl_min_le x
    · exact foldl_min_le_arg hx

theorem pymin_mem {l : List ℚ} (h : l ≠ []) : pymin l ∈ l := by
  cases l with
  | nil => exact absurd rfl h
  | cons a rest => exact foldl_min_mem a

/-! ## Helper lemmas: Python dicts -/

theorem mem_dinsert {K V : Type} [DecidableEq K] {k : K} {v : V}
    {d : List (K × V)} {p : K × V} (hp : p ∈ dinsert k v d) :
    p = (k, v) ∨ p ∈ d := by
  unfold dinsert at hp
  split at hp
  · rcases List.mem_map.mp hp with ⟨q, hq, hqe⟩
    by_cases hk : q.1 = k
    · simp only [hk, if_pos] at hqe
      exact Or.inl hqe.symm
    · simp only [hk, if_neg, not_false_iff] at hqe
      exact Or.inr (hqe ▸ hq)
  · rcases List.mem_append.mp hp with h | h
    · exact Or.inr h
    · exact Or.inl (List.mem_singleton.mp h)

theorem dlookup_mem {K V : Type} [DecidableEq K] {k : K} {v : V} :
    ∀ {d : List (K × V)}, dlookup k d = some v → (k, v) ∈ d := by
  intro d
  induction d with
  | nil => intro h; cases h
  | cons p rest ih =>
    intro h
    unfold dlookup at h
    split at h
    · rename_i hk
      rcases Option.some.inj h with rfl
      refine List.mem_cons.mpr (Or.inl ?_)
      rw [Prod.ext_iff]
      exact ⟨hk.symm, rfl⟩
    · exact List.mem_cons.mpr (Or.inr (ih h))

/-- Members of a Python-dict fold: every entry of
`l.foldl (fun d a => dinsert (key a) (val a) d) d₀` is an initial entry or
comes from some element of `l`. -/
theorem mem_foldl_dinsert {α K V : Type} [DecidableEq K]
    (key : α → K) (val : α → V) :
    ∀ (l : List α) (d₀ : List (K × V)) (p : K × V),
      p ∈ l.foldl (fun d a => dinsert (key a) (val a) d) d₀ →
      p ∈ d₀ ∨ ∃ a ∈ l, p = (key a, val a) := by
  intro l
  induction l with
  | nil => intro d₀ p hp; exact Or.inl hp
  | cons a rest ih =>
    intro d₀ p hp
    simp only [List.foldl_cons] at hp
    rcases ih (dinsert (key a) (val a) d₀) p hp with h | ⟨b, hb, rfl⟩
    · rcases mem_dinsert h with rfl | h
      · exact Or.inr ⟨a, List.mem_cons_self a rest, rfl⟩
      · exact Or.inl h
    · exact Or.inr ⟨b, List.mem_cons.mpr (Or.inr hb), rfl⟩

/-! ## Helper lemmas: semantic search -/

/-- The store reports only non-negative distances (ChromaDB L2 distances);
hypothesis of the score-range claims. -/
def NonnegDistances (env : SearchEnv) : Prop :=
  ∀ (q : String) (n : Nat) (lf : Option String),
    ∀ c ∈ env.queryFn q n lf, 0 ≤ c.2.2

/-- All three scores of a result lie in `[0, 1]`. -/
def unitScores (r : SearchResult) : Prop :=
  0 ≤ r.score ∧ r.score ≤ 1 ∧ 0 ≤ r.semantic_score ∧ r.semantic_score ≤ 1 ∧
    0 ≤ r.keyword_score ∧ r.keyword_score ≤ 1

theorem resultOfQueryItem_some {ms : ℚ} {ff : Option String}
    {c : String × Meta × ℚ} {r : SearchResult}
    (h : resultOfQueryItem ms ff c = some r) :
    r.content = c.1 ∧ r.file_path = c.2.1.file_path.getD "" ∧
      r.start_line = c.2.1.start_line.getD 0 ∧
      r.end_line = c.2.1.end_line.getD 0 ∧
      r.chunk_type = c.2.1.chunk_type.getD "unknown" ∧
      r.name = c.2.1.name.getD "" ∧ r.language = c.2.1.language.getD "" ∧
      r.score = 1 / (1 + c.2.2) ∧ r.semantic_score = r.score ∧
      r.keyword_score = 0 ∧ ¬ r.score < ms ∧
      passFileFilter ff r.file_path = true := by
  simp only [resultOfQueryItem] at h
  split at h
  · cases h
  · split at h
    · cases h
    · rename_i hms hffn
      rcases Option.some.inj h with rfl
      refine ⟨rfl, rfl, rfl, rfl, rfl, rfl, rfl, rfl, rfl, rfl, hms, ?_⟩
      simpa using hffn

theorem mem_search_results {env : SearchEnv} {q : String} {k : Nat} {ms : ℚ}
    {ff lf : Option String} {r : SearchResult} :
    r ∈ (search env q k ms ff lf).results ↔
      ∃ c ∈ env.queryFn q k (whereOf lf), resultOfQueryItem ms ff c = some r := by
  simp [search, List.mem_filterMap]

theorem similarity_unit {d : ℚ} (hd : 0 ≤ d) :
    0 < 1 / (1 + d) ∧ 1 / (1 + d) ≤ 1 := by
  have h1 : (0 : ℚ) < 1 + d := by linarith
  refine ⟨by positivity, ?_⟩
  rw [div_le_one h1]
  linarith

theorem search_results_unit {env : SearchEnv} {q : String} {k : Nat} {ms : ℚ}
    {ff lf : Option String} (hd : NonnegDistances env) :
    ∀ r ∈ (search env q k ms ff lf).results, unitScores r := by
  intro r hr
  rcases mem_search_results.mp hr with ⟨c, hc, hsome⟩
  obtain ⟨-, -, -, -, -, -, -, hscore, hsem, hkw, -, -⟩ :=
    resultOfQueryItem_some hsome
  obtain ⟨hpos, hle⟩ := similarity_unit (hd q k (whereOf lf) c hc)
  rw [← hscore] at hpos hle
  refine ⟨le_of_lt hpos, hle, ?_, ?_, ?_, ?_⟩
  · rw [hsem]; exact le_of_lt hpos
  · rw [hsem]; exact hle
  · rw [hkw]
  · rw [hkw]; exact zero_le_one

/-! ## Helper lemmas: BM25 search -/

theorem mem_bm25Candidates {env : SearchEnv} {q : String} {ff lf : Option String}
    {e : String × Meta × ℚ} (he : e ∈ bm25Candidates env q ff lf) :
    0 < e.2.2 ∧ ∃ ent ∈ env.entries, e.1 = ent.1 ∧ e.2.1 = ent.2 := by
  simp only [bm25Candidates] at he
  split at he
  · cases he
  · rcases List.mem_filterMap.mp he with ⟨es, hes, hsome⟩
    split at hsome
    · cases hsome
    · split at hsome
      · cases hsome
      · split at hsome
        · cases hsome
        · rename_i hpos _ _
          rcases Option.some.inj hsome with rfl
          push_neg at hpos
          exact ⟨hpos, es.1, (List.of_mem_zip hes).1, rfl, rfl⟩

theorem mem_bm25_search {env : SearchEnv} {q : String} {k : Nat}
    {ff lf : Option String} {e : String × Meta × ℚ}
    (he : e ∈ bm25_search env q k ff lf) : e ∈ bm25Candidates env q ff lf := by
  simp only [bm25_search] at he
  split at he
  · cases he
  · exact mem_sortByDesc.mp ((List.take_sublist _ _).mem he)

/-! ## Helper lemmas: score fusion -/

/-- Agreement of all descriptive fields (everything except the scores). -/
def sameChunkFields (r s : SearchResult) : Prop :=
  r.content = s.content ∧ r.file_path = s.file_path ∧
    r.start_line = s.start_line ∧ r.end_line = s.end_line ∧
    r.chunk_type = s.chunk_type ∧ r.name = s.name ∧ r.language = s.language

/-- The `meta.get` defaulting contract of the code: numeric fields default to
`0`, `chunk_type` to `"unknown"`, the remaining string fields to `""`. -/
def fieldsFromMeta (r : SearchResult) (m : Meta) : Prop :=
  r.file_path = m.file_path.getD "" ∧ r.start_line = m.start_line.getD 0 ∧
    r.end_line = m.end_line.getD 0 ∧ r.chunk_type = m.chunk_type.getD "unknown" ∧
    r.name = m.name.getD "" ∧ r.language = m.language.getD ""

theorem fieldsFromMeta_of_same {r s : SearchResult} {m : Meta}
    (hrs : sameChunkFields r s) (hsm : fieldsFromMeta s m) :
    fieldsFromMeta r m := by
  obtain ⟨-, h2, h3, h4, h5, h6, h7⟩ := hrs
  obtain ⟨g2, g3, g4, g5, g6, g7⟩ := hsm
  exact ⟨h2.trans g2, h3.trans g3, h4.trans g4, h5.trans g5,
    h6.trans g6, h7.trans g7⟩

theorem fuseKey_some_score {alpha ms : ℚ}
    {semD : List ((String × Int) × (SearchResult × ℚ))}
    {kwD : List ((String × Int) × (String × Meta × ℚ))}
    {k : String × Int} {r : SearchResult}
    (h : fuseKey alpha ms semD kwD k = some r) :
    r.score = alpha * r.semantic_score + (1 - alpha) * r.keyword_score := by
  unfold fuseKey at h
  rcases hs : dlookup k semD with _ | rv <;> simp only [hs] at h
  · rcases hk : dlookup k kwD with _ | t <;> simp only [hk] at h
    · cases h
    · split at h
      · cases h
      · rcases Option.some.inj h with rfl
        simp
  · rcases hk : dlookup k kwD with _ | t <;> simp only [hk] at h <;> split at h
    · cases h
    · rcases Option.some.inj h with rfl
      simp
    · cases h
    · rcases Option.some.inj h with rfl
      simp

theorem fuseKey_some_unit {alpha ms : ℚ}
    {semD : List ((String × Int) × (SearchResult × ℚ))}
    {kwD : List ((String × Int) × (String × Meta × ℚ))}
    {k : String × Int} {r : SearchResult}
    (hsem : ∀ p ∈ semD, 0 ≤ (p.2).2 ∧ (p.2).2 ≤ 1)
    (hkw : ∀ p ∈ kwD, 0 ≤ (p.2).2.2 ∧ (p.2).2.2 ≤ 1)
    (ha0 : 0 ≤ alpha) (ha1 : alpha ≤ 1)
    (h : fuseKey alpha ms semD kwD k = some r) : unitScores r := by
  have h1a : (0 : ℚ) ≤ 1 - alpha := by linarith
  unfold fuseKey at h
  rcases hs : dlookup k semD with _ | rv <;> simp only [hs] at h
  · rcases hk : dlookup k kwD with _ | t <;> simp only [hk] at h
    · cases h
    · split at h
      · cases h
      · rcases Option.some.inj h with rfl
        obtain ⟨hk0, hk1⟩ := hkw _ (dlookup_mem hk)
        refine ⟨?_, ?_, le_refl 0, zero_le_one, hk0, hk1⟩ <;> dsimp only
        · nlinarith [mul_nonneg h1a hk0]
        · nlinarith [mul_le_mul_of_nonneg_left hk1 h1a]
  · rcases hk : dlookup k kwD with _ | t <;> simp only [hk] at h <;> split at h
    · cases h
    · rcases Option.some.inj h with rfl
      obtain ⟨hs0, hs1⟩ := hsem _ (dlookup_mem hs)
      refine ⟨?_, ?_, hs0, hs1, le_refl 0, zero_le_one⟩ <;> dsimp only
      · nlinarith [mul_nonneg ha0 hs0]
      · nlinarith [mul_le_mul_of_nonneg_left hs1 ha0]
    · cases h
    · rcases Option.some.inj h with rfl
      obtain ⟨hs0, hs1⟩ := hsem _ (dlookup_mem hs)
      obtain ⟨hk0, hk1⟩ := hkw _ (dlookup_mem hk)
      refine ⟨?_, ?_, hs0, hs1, hk0, hk1⟩ <;> dsimp only
      · nlinarith [mul_nonneg ha0 hs0, mul_nonneg h1a hk0]
      · nlinarith [mul_le_mul_of_nonneg_left hs1 ha0,
          mul_le_mul_of_nonneg_left hk1 h1a]

theorem fuseKey_some_fields {alpha ms : ℚ}
    {semD : List ((String × Int) × (SearchResult × ℚ))}
    {kwD : List ((String × Int) × (String × Meta × ℚ))}
    {k : String × Int} {r : SearchResult}
    (h : fuseKey alpha ms semD kwD k = some r) :
    (∃ p ∈ semD, sameChunkFields r (p.2).1) ∨
      (∃ p ∈ kwD, r.content = (p.2).1 ∧ fieldsFromMeta r (p.2).2.1) := by
  unfold fuseKey at h
  rcases hs : dlookup k semD with _ | rv <;> simp only [hs] at h
  · rcases hk : dlookup k kwD with _ | t <;> simp only [hk] at h
    · cases h
    · split at h
      · cases h
      · rcases Option.some.inj h with rfl
        exact Or.inr ⟨(k, t), dlookup_mem hk,
          rfl, rfl, rfl, rfl, rfl, rfl, rfl⟩
  · rcases hk : dlookup k kwD with _ | t <;> simp only [hk] at h <;> split at h
    · cases h
    · rcases Option.some.inj h with rfl
      exact Or.inl ⟨(k, rv), dlookup_mem hs,
        rfl, rfl, rfl, rfl, rfl, rfl, rfl⟩
    · cases h
    · rcases Option.some.inj h with rfl
      exact Or.inl ⟨(k, rv), dlookup_mem hs,
        rfl, rfl, rfl, rfl, rfl, rfl, rfl⟩

/-! ## Helper lemmas: the hybrid lookup maps -/

theorem mem_hybridSemD {env : SearchEnv} {q : String} {n : Nat}
    {ff lf : Option String} {p : (String × Int) × (SearchResult × ℚ)}
    (hp : p ∈ hybridSemD env q n ff lf) :
    ∃ r₀ ∈ (search env q n 0 ff lf).results, p.2 = (r₀, r₀.score) := by
  unfold hybridSemD semanticDict at hp
  rcases mem_foldl_dinsert _ _ _ _ _ hp with h | ⟨r₀, hr₀, rfl⟩
  · cases h
  · exact ⟨r₀, hr₀, rfl⟩

theorem mem_hybridKwD {env : SearchEnv} {q : String} {n : Nat}
    {ff lf : Option String} {p : (String × Int) × (String × Meta × ℚ)}
    (hp : p ∈ hybridKwD env q n ff lf) :
    (0 ≤ (p.2).2.2 ∧ (p.2).2.2 ≤ 1) ∧
      ∃ ent ∈ env.entries, (p.2).1 = ent.1 ∧ (p.2).2.1 = ent.2 := by
  unfold hybridKwD keywordDict at hp
  split at hp
  · cases hp
  · dsimp only at hp
    rcases mem_foldl_dinsert _ _ _ _ _ hp with h | ⟨e, he, rfl⟩
    · cases h
    · obtain ⟨hpos, ent, hent, he1, he2⟩ := mem_bm25Candidates (mem_bm25_search he)
      refine ⟨?_, ent, hent, he1, he2⟩
      dsimp only
      split
      · rename_i hmax
        constructor
        · exact div_nonneg (le_of_lt hpos) (le_of_lt hmax)
        · rw [div_le_one hmax]
          exact le_pymax (List.mem_map_of_mem _ he)
      · exact ⟨le_refl 0, zero_le_one⟩

/-! ## Helper lemmas: re-ranking -/

theorem rerankStep_fields {env : SearchEnv} {q : String}
    {rs : List SearchResult} {k : Nat} {r : SearchResult}
    (hr : r ∈ rerankStep env q rs k) :
    ∃ s ∈ rs, sameChunkFields r s ∧ r.semantic_score = s.semantic_score ∧
      r.keyword_score = s.keyword_score := by
  unfold rerankStep at hr
  split at hr
  · exact ⟨r, (List.take_sublist _ _).mem hr,
      ⟨rfl, rfl, rfl, rfl, rfl, rfl, rfl⟩, rfl, rfl⟩
  · dsimp only at hr
    have hmem := mem_sortByDesc.mp ((List.take_sublist _ _).mem hr)
    rcases List.mem_map.mp hmem with ⟨p, hp, rfl⟩
    exact ⟨p.1, (List.of_mem_zip hp).1,
      ⟨rfl, rfl, rfl, rfl, rfl, rfl, rfl⟩, rfl, rfl⟩

theorem rerankStep_unit {env : SearchEnv} {q : String}
    {rs : List SearchResult} {k : Nat}
    (hin : ∀ r ∈ rs, unitScores r) :
    ∀ r ∈ rerankStep env q rs k, unitScores r := by
  intro r hr
  unfold rerankStep at hr
  split at hr
  · exact hin r ((List.take_sublist _ _).mem hr)
  · dsimp only at hr
    have hmem := mem_sortByDesc.mp ((List.take_sublist _ _).mem hr)
    rcases List.mem_map.mp hmem with ⟨p, hp, rfl⟩
    have hp1 := (List.of_mem_zip hp).1
    have hp2 := (List.of_mem_zip hp).2
    have hmn := pymin_le hp2
    have hmx := le_pymax hp2
    obtain ⟨-, -, u3, u4, u5, u6⟩ := hin p.1 hp1
    refine ⟨?_, ?_, u3, u4, u5, u6⟩ <;> dsimp only <;> unfold rerankRange <;>
      dsimp only <;> split
    · rename_i hlt
      exact div_nonneg (by linarith) (by linarith)
    · rename_i hge
      push_neg at hge
      have heq : p.2 = pymin (rerankRaws env q rs) :=
        le_antisymm (le_trans hmx hge) hmn
      rw [heq]
      simp
    · rename_i hlt
      rw [div_le_one (by linarith)]
      linarith
    · rename_i hge
      push_neg at hge
      have heq : p.2 = pymin (rerankRaws env q rs) :=
        le_antisymm (le_trans hmx hge) hmn
      rw [heq]
      simp

/-! ## Helper lemmas: the fused candidate list and `hybrid_search` -/

theorem mem_hybridFused {env : SearchEnv} {q : String} {n : Nat}
    {ms alpha : ℚ} {ff lf : Option String} {r : SearchResult}
    (hr : r ∈ hybridFused env q n ms alpha ff lf) :
    ∃ k, fuseKey alpha ms (hybridSemD env q n ff lf)
      (hybridKwD env q n ff lf) k = some r := by
  unfold hybridFused at hr
  dsimp only at hr
  rcases List.mem_filterMap.mp hr with ⟨k, -, hk⟩
  exact ⟨k, hk⟩

theorem hybridFused_unit {env : SearchEnv} {q : String} {n : Nat}
    {ms alpha : ℚ} {ff lf : Option String}
    (hd : NonnegDistances env) (ha0 : 0 ≤ alpha) (ha1 : alpha ≤ 1) :
    ∀ r ∈ hybridFused env q n ms alpha ff lf, unitScores r := by
  intro r hr
  rcases mem_hybridFused hr with ⟨k, hk⟩
  refine fuseKey_some_unit ?_ ?_ ha0 ha1 hk
  · intro p hp
    rcases mem_hybridSemD hp with ⟨r₀, hr₀, hpe⟩
    obtain ⟨v1, v2, -⟩ := search_results_unit hd r₀ hr₀
    rw [hpe]
    exact ⟨v1, v2⟩
  · intro p hp
    exact (mem_hybridKwD hp).1

theorem hybridFused_fields {env : SearchEnv} {q : String} {n : Nat}
    {ms alpha : ℚ} {ff lf : Option String} {r : SearchResult}
    (hr : r ∈ hybridFused env q n ms alpha ff lf) :
    (∃ c ∈ env.queryFn q n (whereOf lf), fieldsFromMeta r c.2.1) ∨
      (∃ ent ∈ env.entries, fieldsFromMeta r ent.2) := by
  rcases mem_hybridFused hr with ⟨k, hk⟩
  rcases fuseKey_some_fields hk with ⟨p, hp, hfields⟩ | ⟨p, hp, -, hfm⟩
  · rcases mem_hybridSemD hp with ⟨r₀, hr₀, hpe⟩
    rcases mem_search_results.mp hr₀ with ⟨c, hc, hsome⟩
    obtain ⟨-, h2, h3, h4, h5, h6, h7, -⟩ := resultOfQueryItem_some hsome
    left
    refine ⟨c, hc, ?_⟩
    have hsame : sameChunkFields r r₀ := by
      rw [hpe] at hfields
      exact hfields
    exact fieldsFromMeta_of_same hsame ⟨h2, h3, h4, h5, h6, h7⟩
  · obtain ⟨-, ent, hent, -, he2⟩ := mem_hybridKwD hp
    right
    refine ⟨ent, hent, ?_⟩
    rw [he2] at hfm
    exact hfm

theorem hybrid_results_unit {env : SearchEnv} {q : String} {top_k : Nat}
    {ms alpha : ℚ} {ff lf : Option String} {rk : Bool} {rtk : Nat}
    (hd : NonnegDistances env) (ha0 : 0 ≤ alpha) (ha1 : alpha ≤ 1) :
    ∀ r ∈ (hybrid_search env q top_k ms alpha ff lf rk rtk).results,
      unitScores r := by
  intro r hr
  unfold hybrid_search at hr
  split at hr
  · exact search_results_unit hd r hr
  · dsimp only at hr
    split at hr
    · refine rerankStep_unit ?_ r hr
      intro s hs
      exact hybridFused_unit hd ha0 ha1 s
        (mem_sortByDesc.mp ((List.take_sublist _ _).mem hs))
    · exact hybridFused_unit hd ha0 ha1 r
        (mem_sortByDesc.mp ((List.take_sublist _ _).mem hr))

theorem hybrid_results_fields {env : SearchEnv} {q : String} {top_k : Nat}
    {ms alpha : ℚ} {ff lf : Option String} {rk : Bool} {rtk : Nat}
    {r : SearchResult}
    (hr : r ∈ (hybrid_search env q top_k ms alpha ff lf rk rtk).results) :
    (∃ n, ∃ c ∈ env.queryFn q n (whereOf lf), fieldsFromMeta r c.2.1) ∨
      (∃ ent ∈ env.entries, fieldsFromMeta r ent.2) := by
  unfold hybrid_search at hr
  split at hr
  · rcases mem_search_results.mp hr with ⟨c, hc, hsome⟩
    obtain ⟨-, h2, h3, h4, h5, h6, h7, -⟩ := resultOfQueryItem_some hsome
    exact Or.inl ⟨top_k, c, hc, h2, h3, h4, h5, h6, h7⟩
  · dsimp only at hr
    split at hr
    · obtain ⟨s, hs, hsame, -, -⟩ := rerankStep_fields hr
      have hsf := hybridFused_fields
        (mem_sortByDesc.mp ((List.take_sublist _ _).mem hs))
      rcases hsf with ⟨c, hc, hfm⟩ | ⟨ent, hent, hfm⟩
      · exact Or.inl ⟨_, c, hc, fieldsFromMeta_of_same hsame hfm⟩
      · exact Or.inr ⟨ent, hent, fieldsFromMeta_of_same hsame hfm⟩
    · have hsf := hybridFused_fields
        (mem_sortByDesc.mp ((List.take_sublist _ _).mem hr))
      rcases hsf with ⟨c, hc, hfm⟩ | ⟨ent, hent, hfm⟩
      · exact Or.inl ⟨_, c, hc, hfm⟩
      · exact Or.inr ⟨ent, hent, hfm⟩

theorem mem_sortByAsc {α : Type} {key : α → Int} {l : List α} {x : α} :
    x ∈ sortByAsc key l ↔ x ∈ l :=
  (sortByAsc_perm key l).mem_iff

/-- Zipping a list with its own map lists each element next to its image. -/
theorem zip_self_map {α β : Type} (f : α → β) (l : List α) :
    l.zip (l.map f) = l.map (fun x => (x, f x)) := by
  induction l with
  | nil => rfl
  | cons a rest ih => simp [List.zip_cons_cons, ih]

theorem infix_append_right {l₁ l₂ l₃ : List Char} (h : l₁ <:+: l₂) :
    l₁ <:+: l₂ ++ l₃ := by
  obtain ⟨s, t, rfl⟩ := h
  exact ⟨s, t ++ l₃, by simp⟩

theorem infix_append_left {l₁ l₂ l₃ : List Char} (h : l₁ <:+: l₃) :
    l₁ <:+: l₂ ++ l₃ := by
  obtain ⟨s, t, rfl⟩ := h
  exact ⟨l₂ ++ s, t, by simp⟩

/-! ## Concrete inputs used by the witnesses -/

/-- Metadata of a fully populated stored chunk. -/
def wMeta1 : Meta :=
  { file_path := some "src/Auth/manager.py", start_line := some 10,
    end_line := some 20, chunk_type := some "function",
    name := some "authenticate_user", language := some "python" }

/-- Metadata of a second fully populated stored chunk. -/
def wMeta2 : Meta :=
  { file_path := some "src/db.py", start_line := some 1, end_line := some 5,
    chunk_type := some "class", name := some "DatabaseConnection",
    language := some "python" }

/-- A small fully featured environment: three stored chunks (one with empty
metadata), a store answering nearest-neighbour queries with two hits at
distances 0 and 1, BM25 scores `[2, 0, 1]`, and both capability flags on. -/
def wEnv : SearchEnv :=
  { entries := [("def authenticate_user", wMeta1),
      ("class DatabaseConnection", wMeta2), ("orphan chunk", emptyMeta)]
    queryFn := fun _ _ _ =>
      [("def authenticate_user", wMeta1, 0), ("class DatabaseConnection", wMeta2, 1)]
    bm25ScoresFn := fun _ => [2, 0, 1]
    rerankFn := fun _ c => if c = "def authenticate_user" then 3 else 1
    bm25Available := true
    rerankAvailable := true }

/-- A copy of `wEnv` with the BM25 library absent. -/
def wEnvNoBM25 : SearchEnv := { wEnv with bm25Available := false }

/-- An environment with a single semantic hit and an empty collection, used
where a small hybrid computation is needed. -/
def wEnvSemOnly : SearchEnv :=
  { entries := []
    queryFn := fun _ _ _ => [("def authenticate_user", wMeta1, 0)]
    bm25ScoresFn := fun _ => []
    rerankFn := fun _ _ => 0
    bm25Available := true
    rerankAvailable := false }

/-! ## Claims -/

/-- C2: the tokenizer satisfies the spec's three examples exactly:
`_tokenize "processUserRequest" = [process, user, request]`,
`_tokenize "process_snake_case" = [process, snake, case]`, and
`_tokenize "handleAuthenticationError AUTH_001"` contains
`handle`, `authentication`, `error`, `auth` and `001`. -/
theorem tokenize_spec_examples :
    tokenize "processUserRequest" = ["process", "user", "request"] ∧
      tokenize "process_snake_case" = ["process", "snake", "case"] ∧
      "handle" ∈ tokenize "handleAuthenticationError AUTH_001" ∧
      "authentication" ∈ tokenize "handleAuthenticationError AUTH_001" ∧
      "error" ∈ tokenize "handleAuthenticationError AUTH_001" ∧
      "auth" ∈ tokenize "handleAuthenticationError AUTH_001" ∧
      "001" ∈ tokenize "handleAuthenticationError AUTH_001" := by
  decide

/-- C6: whenever the BM25 backend is absent, `hybrid_search` returns exactly
the `SearchResponse` of `search` with the same query, `top_k`, `min_score`
and filters, for every choice of the remaining arguments. -/
theorem hybrid_fallback_to_search (env : SearchEnv) (q : String) (top_k : Nat)
    (ms alpha : ℚ) (ff lf : Option String) (rk : Bool) (rtk : Nat)
    (h : env.bm25Available = false) :
    hybrid_search env q top_k ms alpha ff lf rk rtk =
      search env q top_k ms ff lf := by
  unfold hybrid_search
  rw [h]
  simp

/-- Witness for C6 at a concrete environment with the BM25 flag off. -/
theorem hybrid_fallback_to_search_witness :
    wEnvNoBM25.bm25Available = false ∧
      hybrid_search wEnvNoBM25 "q" 10 0 (1/2) none none true 20 =
        search wEnvNoBM25 "q" 10 0 none none :=
  ⟨rfl, hybrid_fallback_to_search wEnvNoBM25 "q" 10 0 (1/2) none none true 20 rfl⟩

/-- C4: `_bm25_search` never returns an entry with a non-positive BM25
score, its output is sorted descending by score, and it has at most `top_k`
entries. -/
theorem bm25_search_spec (env : SearchEnv) (q : String) (top_k : Nat)
    (ff lf : Option String) :
    (∀ e ∈ bm25_search env q top_k ff lf, 0 < e.2.2) ∧
      (bm25_search env q top_k ff lf).Pairwise (fun a b => b.2.2 ≤ a.2.2) ∧
      (bm25_search env q top_k ff lf).length ≤ top_k := by
  refine ⟨?_, ?_, ?_⟩
  · intro e he
    exact (mem_bm25Candidates (mem_bm25_search he)).1
  · unfold bm25_search
    split
    · simp
    · exact ((sorted_sortByDesc _ _).sublist (List.take_sublist _ _))
  · unfold bm25_search
    split
    · simp
    · rw [List.length_take]
      exact min_le_left _ _

/-- Witness for C4: a concrete BM25 query with a nonempty result whose top
entry has a positive score. -/
theorem bm25_search_spec_witness :
    ("def authenticate_user", wMeta1, (2 : ℚ)) ∈
        bm25_search wEnv "authenticate" 10 none none ∧
      (0 : ℚ) < 2 :=
  ⟨by decide, (bm25_search_spec wEnv "authenticate" 10 none none).1
    ("def authenticate_user", wMeta1, (2 : ℚ)) (by decide)⟩

/-- C3: under a store reporting non-negative distances and a caller-supplied
`alpha ∈ [0, 1]`, every result of `search`, `hybrid_search` (with or without
re-ranking) and `get_file_context` has `score`, `semantic_score` and
`keyword_score` all in `[0, 1]`. -/
theorem all_scores_unit (env : SearchEnv) (q f : String) (top_k : Nat)
    (ms alpha : ℚ) (ff lf : Option String) (rk : Bool) (rtk : Nat)
    (hd : NonnegDistances env) (ha0 : 0 ≤ alpha) (ha1 : alpha ≤ 1) :
    (∀ r ∈ (search env q top_k ms ff lf).results, unitScores r) ∧
      (∀ r ∈ (hybrid_search env q top_k ms alpha ff lf rk rtk).results,
        unitScores r) ∧
      (∀ r ∈ get_file_context env f, unitScores r) := by
  refine ⟨search_results_unit hd, hybrid_results_unit hd ha0 ha1, ?_⟩
  intro r hr
  unfold get_file_context at hr
  rcases List.mem_map.mp (mem_sortByAsc.mp hr) with ⟨e, -, rfl⟩
  exact ⟨zero_le_one, le_refl 1, le_refl 0, zero_le_one, le_refl 0, zero_le_one⟩

/-- Witness for C3 on the concrete environment `wEnv` with `alpha = 1/2`. -/
theorem all_scores_unit_witness :
    NonnegDistances wEnv ∧ (0 : ℚ) ≤ 1/2 ∧ (1 : ℚ)/2 ≤ 1 ∧
      ((∀ r ∈ (search wEnv "q" 10 0 none none).results, unitScores r) ∧
        (∀ r ∈ (hybrid_search wEnv "q" 10 0 (1/2) none none true 20).results,
          unitScores r) ∧
        (∀ r ∈ get_file_context wEnv "src/db.py", unitScores r)) := by
  have hd : NonnegDistances wEnv := by
    intro q n lf c hc
    simp only [wEnv, List.mem_cons, List.not_mem_nil, or_false] at hc
    rcases hc with rfl | rfl <;> norm_num
  exact ⟨hd, by norm_num, by norm_num,
    all_scores_unit wEnv "q" "src/db.py" 10 0 (1/2) none none true 20 hd
      (by norm_num) (by norm_num)⟩

/-- C1: with `alpha = 1` (and the default `rerank=False`), every result of
`hybrid_search` has `score = semantic_score`: the keyword contribution is
weighted to zero by `combined = alpha * semantic + (1 - alpha) * keyword`. -/
theorem hybrid_alpha_one_semantic (env : SearchEnv) (q : String) (top_k : Nat)
    (ms : ℚ) (ff lf : Option String) (rtk : Nat) :
    ∀ r ∈ (hybrid_search env q top_k ms 1 ff lf false rtk).results,
      r.score = r.semantic_score := by
  intro r hr
  unfold hybrid_search at hr
  split at hr
  · rcases mem_search_results.mp hr with ⟨c, -, hsome⟩
    obtain ⟨-, -, -, -, -, -, -, -, hsem, -⟩ := resultOfQueryItem_some hsome
    exact hsem.symm
  · simp only [Bool.false_and, Bool.false_eq_true, if_false] at hr
    rcases mem_hybridFused
      (mem_sortByDesc.mp ((List.take_sublist _ _).mem hr)) with ⟨k, hk⟩
    have hscore := fuseKey_some_score hk
    rw [hscore]
    ring

/-- The fully scored result of the single `wEnvSemOnly` hit. -/
def wR1 : SearchResult :=
  { content := "def authenticate_user"
    file_path := "src/Auth/manager.py"
    start_line := 10
    end_line := 20
    chunk_type := "function"
    name := "authenticate_user"
    language := "python"
    score := 1
    semantic_score := 1
    keyword_score := 0 }

/-- Witness for C1: a concrete hybrid query with `alpha = 1` whose single
result has `score = semantic_score`. -/
theorem hybrid_alpha_one_semantic_witness :
    wR1 ∈ (hybrid_search wEnvSemOnly "q" 10 0 1 none none false 20).results ∧
      wR1.score = wR1.semantic_score := by
  have hmem : wR1 ∈
      (hybrid_search wEnvSemOnly "q" 10 0 1 none none false 20).results := by
    norm_num +decide [hybrid_search, hybridFused, hybridSemD, hybridKwD,
      semanticDict, keywordDict, fuseKey, dinsert, dlookup, bm25_search,
      bm25Candidates, search, resultOfQueryItem, passFileFilter, whereOf,
      sortByDesc, insertByDesc, sortByAsc, pymax, pymin, wEnvSemOnly, wMeta1,
      wR1, List.filterMap_cons, List.foldl_cons, List.foldl_nil]
  exact ⟨hmem, hybrid_alpha_one_semantic wEnvSemOnly "q" 10 0 none none 20
    wR1 hmem⟩

/-- C9: `get_file_context f` returns exactly the stored chunks whose
metadata `file_path` equals `f` (as a permutation of that filtered list,
with content unchanged), ordered ascending by `start_line`, each with
`score = 1`. -/
theorem get_file_context_spec (env : SearchEnv) (f : String) :
    List.Perm (get_file_context env f)
      ((env.entries.filter (fun e => e.2.file_path = some f)).map
        fileContextResult) ∧
      (get_file_context env f).Pairwise
        (fun a b => a.start_line ≤ b.start_line) ∧
      (∀ r ∈ get_file_context env f, r.score = 1 ∧
        ∃ e ∈ env.entries, e.2.file_path = some f ∧
          r = fileContextResult e ∧ r.content = e.1) := by
  refine ⟨sortByAsc_perm _ _, sorted_sortByAsc _ _, ?_⟩
  intro r hr
  unfold get_file_context at hr
  rcases List.mem_map.mp (mem_sortByAsc.mp hr) with ⟨e, he, rfl⟩
  obtain ⟨he1, he2⟩ := List.mem_filter.mp he
  exact ⟨rfl, e, he1, by simpa using he2, rfl, rfl⟩

/-- Witness for C9 on `wEnv`: the stored chunk of `src/Auth/manager.py` is
returned with score 1. -/
theorem get_file_context_spec_witness :
    fileContextResult ("def authenticate_user", wMeta1) ∈
        get_file_context wEnv "src/Auth/manager.py" ∧
      (fileContextResult ("def authenticate_user", wMeta1)).score = 1 :=
  ⟨by decide, ((get_file_context_spec wEnv "src/Auth/manager.py").2.2 _
    (by decide)).1⟩

/-- The normalization contract of `_rerank`, stated about the embedded
definitions: the batch range is positive (never a division by zero), an
all-equal batch has range 1, and every returned score is the min-max
normalization `(raw - min) / range` of some batch member's raw
cross-encoder score, landing in `[0, 1]`. -/
def rerankNormalized (env : SearchEnv) (q : String) (rs : List SearchResult)
    (top_k : Nat) : Prop :=
  0 < rerankRange env q rs ∧
    ((∀ x ∈ rerankRaws env q rs, ∀ y ∈ rerankRaws env q rs, x = y) →
      rerankRange env q rs = 1) ∧
    (∀ r ∈ rerankStep env q rs top_k,
      (0 ≤ r.score ∧ r.score ≤ 1) ∧
        ∃ s ∈ rs, r.score =
          (env.rerankFn q s.content - pymin (rerankRaws env q rs)) /
            rerankRange env q rs)

/-- C5: when a reranker is available and the batch is nonempty, `_rerank`
min-max normalizes the raw cross-encoder scores into `[0, 1]`; an
equal-score batch gets range `1.0`, so the division is never by zero. -/
theorem rerank_normalization (env : SearchEnv) (q : String)
    (rs : List SearchResult) (top_k : Nat)
    (hav : env.rerankAvailable = true) (hne : rs ≠ []) :
    rerankNormalized env q rs top_k := by
  have hraws : rerankRaws env q rs ≠ [] := by
    unfold rerankRaws
    simpa using hne
  refine ⟨?_, ?_, ?_⟩
  · unfold rerankRange
    dsimp only
    split
    · rename_i h
      linarith
    · norm_num
  · intro hall
    unfold rerankRange
    dsimp only
    rw [if_neg]
    intro hlt
    have h1 := pymin_mem hraws
    have h2 := pymax_mem hraws
    exact absurd (hall _ h1 _ h2 ▸ hlt) (lt_irrefl _)
  · intro r hr
    unfold rerankStep at hr
    rw [if_neg (by simp [hav, hne])] at hr
    dsimp only at hr
    rw [show rerankRaws env q rs = rs.map (fun s => env.rerankFn q s.content)
      from rfl, zip_self_map,
      ← show rerankRaws env q rs = rs.map (fun s => env.rerankFn q s.content)
      from rfl] at hr
    rcases List.mem_map.mp (mem_sortByDesc.mp ((List.take_sublist _ _).mem hr))
      with ⟨p, hp, rfl⟩
    rcases List.mem_map.mp hp with ⟨s, hs, rfl⟩
    have hraw : env.rerankFn q s.content ∈ rerankRaws env q rs :=
      List.mem_map_of_mem _ hs
    have hmn := pymin_le hraw
    have hmx := le_pymax hraw
    refine ⟨⟨?_, ?_⟩, s, hs, rfl⟩ <;> dsimp only <;> unfold rerankRange <;>
      dsimp only <;> split
    · rename_i hlt
      exact div_nonneg (by linarith) (by linarith)
    · rename_i hge
      push_neg at hge
      have heq : env.rerankFn q s.content = pymin (rerankRaws env q rs) :=
        le_antisymm (le_trans hmx hge) hmn
      rw [heq]
      simp
    · rename_i hlt
      rw [div_le_one (by linarith)]
      linarith
    · rename_i hge
      push_neg at hge
      have heq : env.rerankFn q s.content = pymin (rerankRaws env q rs) :=
        le_antisymm (le_trans hmx hge) hmn
      rw [heq]
      simp

/-- Witness for C5: a two-element batch with distinct raw scores 3 and 1. -/
theorem rerank_normalization_witness :
    wEnv.rerankAvailable = true ∧
      (wR1 :: [fileContextResult ("class DatabaseConnection", wMeta2)]) ≠
        [] ∧
      rerankNormalized wEnv "q"
        (wR1 :: [fileContextResult ("class DatabaseConnection", wMeta2)]) 5 :=
  ⟨rfl, List.cons_ne_nil _ _,
    rerank_normalization wEnv "q"
      (wR1 :: [fileContextResult ("class DatabaseConnection", wMeta2)]) 5
      rfl (List.cons_ne_nil _ _)⟩

/-- An environment whose single stored chunk has completely missing
metadata; its store returns that chunk at distance 0. -/
def envC7 : SearchEnv :=
  { entries := [("orphan chunk", emptyMeta)]
    queryFn := fun _ _ _ => [("orphan chunk", emptyMeta, 0)]
    bm25ScoresFn := fun _ => [1]
    rerankFn := fun _ _ => 0
    bm25Available := true
    rerankAvailable := false }

/-- C7 counterexample: on a chunk with missing metadata, `search` fills
`chunk_type` with the string `"unknown"`, not with the empty string claimed
by the spec. -/
theorem chunk_type_defaults_to_unknown :
    (search envC7 "q" 10 0 none none).results.map
        (fun r => r.chunk_type) = ["unknown"] ∧
      (("unknown" : String) = "") = False := by
  constructor
  · norm_num +decide [search, resultOfQueryItem, passFileFilter, whereOf,
      envC7, emptyMeta, List.filterMap_cons]
  · simp

/-- C7 amended: when stored metadata is malformed or partially missing,
every result-constructing operation (`search`, `hybrid_search`,
`get_file_context`) defaults `start_line` and `end_line` to `0`,
`file_path`, `name` and `language` to the empty string, and `chunk_type`
to `"unknown"`; none of them raises (all are total functions).  Every
returned result draws its fields, with exactly those defaults, from some
metadata record delivered by the store. -/
theorem metadata_defaults (env : SearchEnv) (q f : String) (top_k : Nat)
    (ms alpha : ℚ) (ff lf : Option String) (rk : Bool) (rtk : Nat) :
    (∀ r ∈ (search env q top_k ms ff lf).results,
        ∃ c ∈ env.queryFn q top_k (whereOf lf), fieldsFromMeta r c.2.1) ∧
      (∀ r ∈ get_file_context env f,
        ∃ e ∈ env.entries, fieldsFromMeta r e.2) ∧
      (∀ r ∈ (hybrid_search env q top_k ms alpha ff lf rk rtk).results,
        (∃ n, ∃ c ∈ env.queryFn q n (whereOf lf), fieldsFromMeta r c.2.1) ∨
          (∃ e ∈ env.entries, fieldsFromMeta r e.2)) := by
  refine ⟨?_, ?_, ?_⟩
  · intro r hr
    rcases mem_search_results.mp hr with ⟨c, hc, hsome⟩
    obtain ⟨-, h2, h3, h4, h5, h6, h7, -⟩ := resultOfQueryItem_some hsome
    exact ⟨c, hc, h2, h3, h4, h5, h6, h7⟩
  · intro r hr
    unfold get_file_context at hr
    rcases List.mem_map.mp (mem_sortByAsc.mp hr) with ⟨e, he, rfl⟩
    exact ⟨e, (List.mem_filter.mp he).1, rfl, rfl, rfl, rfl, rfl, rfl⟩
  · intro r hr
    exact hybrid_results_fields hr

/-- The result `search` builds for the metadata-less chunk of `envC7`. -/
def rC7 : SearchResult :=
  { content := "orphan chunk"
    file_path := ""
    start_line := 0
    end_line := 0
    chunk_type := "unknown"
    name := ""
    language := ""
    score := 1
    semantic_score := 1
    keyword_score := 0 }

/-- Witness for C7 (amended) on `envC7`: the all-defaults result is
returned by `search` and its fields satisfy the defaulting contract with
respect to the empty metadata record. -/
theorem metadata_defaults_witness :
    rC7 ∈ (search envC7 "q" 10 0 none none).results ∧
      ∃ c ∈ envC7.queryFn "q" 10 (whereOf none), fieldsFromMeta rC7 c.2.1 := by
  have hmem : rC7 ∈ (search envC7 "q" 10 0 none none).results := by
    norm_num +decide [search, resultOfQueryItem, passFileFilter, whereOf,
      envC7, emptyMeta, rC7, List.filterMap_cons]
  exact ⟨hmem,
    (metadata_defaults envC7 "q" "f" 10 0 0 none none false 20).1 _ hmem⟩

theorem initMessageDir_contains (p : String) :
    "not found".toList <:+: (initMessageDir p).toList ∧
      "Run 'ai-assist index' first.".toList <:+: (initMessageDir p).toList := by
  unfold initMessageDir
  constructor
  · have heq : ("Index not found at " ++ p ++
        ". Run 'ai-assist index' first.").toList =
        "Index not found at ".toList ++
          (p.toList ++ ". Run 'ai-assist index' first.".toList) := by
      simp
    rw [heq]
    exact infix_append_right ⟨"Index ".toList, " at ".toList, by decide⟩
  · have heq : ("Index not found at " ++ p ++
        ". Run 'ai-assist index' first.").toList =
        ("Index not found at ".toList ++ p.toList) ++
          ". Run 'ai-assist index' first.".toList := by
      simp
    rw [heq]
    exact infix_append_left ⟨". ".toList, [], by decide⟩

theorem initMessageCollection_contains (n : String) :
    "not found".toList <:+: (initMessageCollection n).toList ∧
      "Run 'ai-assist index' first.".toList <:+:
        (initMessageCollection n).toList := by
  unfold initMessageCollection
  constructor
  · have heq : ("Collection '" ++ n ++
        "' not found. Run 'ai-assist index' first.").toList =
        ("Collection '".toList ++ n.toList) ++
          "' not found. Run 'ai-assist index' first.".toList := by
      simp
    rw [heq]
    exact infix_append_left
      ⟨"' ".toList, ". Run 'ai-assist index' first.".toList, by decide⟩
  · have heq : ("Collection '" ++ n ++
        "' not found. Run 'ai-assist index' first.").toList =
        ("Collection '".toList ++ n.toList) ++
          "' not found. Run 'ai-assist index' first.".toList := by
      simp
    rw [heq]
    exact infix_append_left ⟨"' not found. ".toList, [], by decide⟩

/-- C8: constructing a search session fails if and only if the persistence
directory is missing or the collection cannot be retrieved; in that case the
error message contains "not found" and the remediation "Run 'ai-assist
index' first.", and no session is produced; otherwise the session is
returned as-is. -/
theorem initSearch_not_found (d : Bool) (p n : String) (c : Option SearchEnv) :
    ((∃ msg, initSearch d p n c = .error msg) ↔ (d = false ∨ c = none)) ∧
      (∀ msg, initSearch d p n c = .error msg →
        "not found".toList <:+: msg.toList ∧
          "Run 'ai-assist index' first.".toList <:+: msg.toList) ∧
      (∀ env, c = some env → d = true → initSearch d p n c = .ok env) := by
  refine ⟨?_, ?_, ?_⟩
  · cases d <;> cases c <;> simp [initSearch]
  · intro msg hmsg
    cases d
    · unfold initSearch at hmsg
      simp at hmsg
      rw [← hmsg]
      exact initMessageDir_contains p
    · cases c
      · unfold initSearch at hmsg
        simp at hmsg
        rw [← hmsg]
        exact initMessageCollection_contains n
      · unfold initSearch at hmsg
        simp at hmsg
  · intro env hc hd
    subst hc
    subst hd
    simp [initSearch]

/-- Witness for C8: a missing persistence directory produces the "index not
found" error with remediation guidance. -/
theorem initSearch_not_found_witness :
    initSearch false ".ai-index" "codebase" none =
        .error (initMessageDir ".ai-index") ∧
      ("not found".toList <:+: (initMessageDir ".ai-index").toList ∧
        "Run 'ai-assist index' first.".toList <:+:
          (initMessageDir ".ai-index").toList) :=
  ⟨rfl, (initSearch_not_found false ".ai-index" "codebase" none).2.1 _ rfl⟩

/-- Filtering an optional value: keep `some r` only when `p r`. -/
def optFilter {β : Type} (p : β → Bool) : Option β → Option β
  | some r => if p r then some r else none
  | none => none

/-- Filtering after an unfiltered `filterMap` equals one `filterMap` whose
body applies the predicate to the produced value. -/
theorem filterMap_eq_filter_filterMap {α β : Type} (f g : α → Option β)
    (p : β → Bool) (h : ∀ c, f c = optFilter p (g c)) :
    ∀ items : List α, items.filterMap f = (items.filterMap g).filter p := by
  intro items
  induction items with
  | nil => rfl
  | cons c rest ih =>
    simp only [List.filterMap_cons]
    rw [h c]
    rcases hgc : g c with _ | r
    · simp only [optFilter]
      exact ih
    · simp only [optFilter]
      by_cases hp : p r = true
      · rw [if_pos hp]
        simp only [List.filter_cons, hp, if_true]
        rw [ih]
      · rw [if_neg hp]
        simp only [Bool.not_eq_true] at hp
        simp only [List.filter_cons, hp]
        rw [ih]
        simp

theorem isEmpty_false_of_ne {s : String} (hs : s ≠ "") : s.isEmpty = false := by
  rw [Bool.eq_false_iff]
  intro he
  exact hs ((String.isEmpty_iff s).mp he)

theorem resultOfQueryItem_filter_eq (ms : ℚ) {ff : String}
    (hie : ff.isEmpty = false) (c : String × Meta × ℚ) :
    resultOfQueryItem ms (some ff) c =
      optFilter (fun r => strContains (pyLower ff) (pyLower r.file_path))
        (resultOfQueryItem ms none c) := by
  unfold resultOfQueryItem
  dsimp only
  split
  · rfl
  · by_cases hsc :
      strContains (pyLower ff) (pyLower (c.2.1.file_path.getD "")) = true
    · simp [passFileFilter, hie, hsc, optFilter]
    · simp only [Bool.not_eq_true] at hsc
      simp [passFileFilter, hie, hsc, optFilter]

theorem bm25Item_filter_eq {ff : String} (hie : ff.isEmpty = false)
    (lf : Option String) (es : (String × Meta) × ℚ) :
    (if es.2 ≤ 0 then none
      else if passFileFilter (some ff) (es.1.2.file_path.getD "") = false
        then none
      else if passLangFilter lf (es.1.2.language.getD "") = false then none
      else some (es.1.1, es.1.2, es.2)) =
      optFilter
        (fun e => strContains (pyLower ff) (pyLower (e.2.1.file_path.getD "")))
        (if es.2 ≤ 0 then none
          else if passFileFilter none (es.1.2.file_path.getD "") = false
            then none
          else if passLangFilter lf (es.1.2.language.getD "") = false then none
          else some (es.1.1, es.1.2, es.2)) := by
  split
  · rfl
  · by_cases hsc :
      strContains (pyLower ff) (pyLower (es.1.2.file_path.getD "")) = true
    · simp only [passFileFilter, hie, Bool.false_or, hsc]
      norm_num
      split <;> simp [optFilter, hsc]
    · simp only [Bool.not_eq_true] at hsc
      simp only [passFileFilter, hie, Bool.false_or, hsc]
      norm_num
      split <;> simp [optFilter, hsc]

/-- C10: the `file_filter` substring match is case-insensitive in both
`search` and the BM25 candidate loop: for a non-empty filter, filtering
equals keeping exactly the candidates whose lowercased `file_path` contains
the lowercased filter. -/
theorem file_filter_caseless (env : SearchEnv) (q : String) (k : Nat)
    (ms : ℚ) (lf : Option String) (ff : String) (hff : ff ≠ "") :
    ((search env q k ms (some ff) lf).results =
      (search env q k ms none lf).results.filter
        (fun r => strContains (pyLower ff) (pyLower r.file_path))) ∧
      (bm25Candidates env q (some ff) lf =
        (bm25Candidates env q none lf).filter
          (fun e => strContains (pyLower ff)
            (pyLower (e.2.1.file_path.getD "")))) := by
  have hie := isEmpty_false_of_ne hff
  constructor
  · unfold search
    dsimp only
    exact filterMap_eq_filter_filterMap _ _ _
      (resultOfQueryItem_filter_eq ms hie) _
  · unfold bm25Candidates
    dsimp only
    split
    · rfl
    · exact filterMap_eq_filter_filterMap _ _ _
        (bm25Item_filter_eq hie lf) _

/-- Witness for C10: the filter `"AUTH"` keeps the chunk whose path contains
`"Auth"` (different letter case) in both `search` and the BM25 candidates. -/
theorem file_filter_caseless_witness :
    ("AUTH" : String) ≠ "" ∧
      ((search wEnv "q" 10 0 (some "AUTH") none).results =
        (search wEnv "q" 10 0 none none).results.filter
          (fun r => strContains (pyLower "AUTH") (pyLower r.file_path))) ∧
      wR1 ∈ (search wEnv "q" 10 0 (some "AUTH") none).results := by
  refine ⟨by decide,
    (file_filter_caseless wEnv "q" 10 0 none "AUTH" (by decide)).1, ?_⟩
  norm_num +decide [search, resultOfQueryItem, passFileFilter, whereOf,
    wEnv, wMeta1, wMeta2, wR1, List.filterMap_cons]

end RetrievalSearch
